import Mathlib

/-!
Verification development for the node-tree core of the MEGA SDK
(`src/include/mega/node.h`). The header declares the data model
(NodeCore, NewNode, PublicLink, Fingerprints, Node, LocalNode) and the
operations on it; the function bodies live outside the provided sources,
so the operations are modelled from the specification document and the
data model is embedded from the header.
-/

namespace MegaSdk

/-- Node handles are modelled as natural numbers. -/
abbrev Handle := Nat

/-- Node type, from `nodetype_t` as used in the header (FILENODE / FOLDERNODE). -/
inductive NType where
  | filenode
  | foldernode
deriving DecidableEq, Repr

/-- Provenance of a NewNode, from `newnodesource_t`. -/
inductive NewNodeSource where
  | newNode
  | newPublic
  | newUpload
deriving DecidableEq, Repr

/-- Folder-node key length: a node key is cooked when its size matches this
or `FILEFOLDERNODEKEYLENGTH` (comment on `NodeCore::nodekey` in the header). -/
def FOLDERNODEKEYLENGTH : Nat := 16

/-- File/folder-node key length, the second cooked key length. -/
def FILEFOLDERNODEKEYLENGTH : Nat := 32

/-- `NewNode::UPLOADTOKENLEN` from the header: `static const int UPLOADTOKENLEN = 36`. -/
def UPLOADTOKENLEN : Nat := 36

/-- `NewNode::OLDUPLOADTOKENLEN` from the header: `static const int OLDUPLOADTOKENLEN = 27`. -/
def OLDUPLOADTOKENLEN : Nat := 27

/-- `NodeCore` from the header: own handle, parent handle, node type,
raw or cooked key material, and the still-encrypted attribute blob
(a nullable pointer, hence `Option`). Bytes are modelled as naturals. -/
structure NodeCore where
  nodehandle : Handle
  parenthandle : Handle
  ntype : NType
  nodekey : List Nat
  attrstring : Option (List Nat)
deriving DecidableEq, Repr

/-- `NewNode` from the header: a NodeCore plus provenance, overwrite handle,
upload handle, the fixed-size upload token `byte uploadtoken[UPLOADTOKENLEN]`
(a C array of exactly UPLOADTOKENLEN bytes, hence a length-indexed subtype),
sync id, optional owned file-attribute string, and the completion flag. -/
structure NewNode extends NodeCore where
  source : NewNodeSource
  ovhandle : Handle
  uploadhandle : Handle
  uploadtoken : { l : List Nat // l.length = UPLOADTOKENLEN }
  syncid : Handle
  fileattributes : Option (List Nat)
  added : Bool

/-- `PublicLink` from the header: link handle, creation time, expiry time and
takedown flag. `ets` is an `m_time_t`; the value 0 denotes "no expiry set"
(the spec: "expiry time (may be unset)"). -/
structure PublicLink where
  ph : Handle
  cts : Int
  ets : Int
  takendown : Bool
deriving DecidableEq, Repr

/-- Modelled from the spec: the body of `PublicLink::isExpired` is not in the
provided sources; the spec says "`isExpired()` is true iff an expiry time is
set and has elapsed". An expiry time is set when `ets` is nonzero, and it has
elapsed at time `now` when `ets < now`. -/
def PublicLink.isExpired (l : PublicLink) (now : Int) : Bool :=
  l.ets != 0 && l.ets < now

/-! ## Remote node tree: parent pointers, child collections, setparent

`Node` in the header carries `Node* parent`, `node_list children` and
`child_it` (its own position in the parent's children).  The structural
state of the remote tree is embedded as an association list from handles
to records holding the parent pointer and the child collection. -/

/-- Structural part of `Node`: the parent pointer (`Node* parent`, `none`
for a root) and the child collection (`node_list children`), by handle. -/
structure RNode where
  parent : Option Handle
  children : List Handle
deriving DecidableEq, Repr

/-- The remote node tree: an association list from handles to structural
node records. -/
abbrev Tree := List (Handle × RNode)

/-- Look up a record in a handle-keyed association list (first match). -/
def lookupN {α : Type} : List (Handle × α) → Handle → Option α
  | [], _ => none
  | e :: t, h => if e.1 = h then some e.2 else lookupN t h

/-- Update the record stored under a handle by applying `f`; other
entries are unchanged. -/
def setNode {α : Type} : List (Handle × α) → Handle → (α → α) → List (Handle × α)
  | [], _, _ => []
  | e :: t, h, f => (if e.1 = h then (e.1, f e.2) else e) :: setNode t h f

/-- Erase the (first) entry stored under a handle. -/
def eraseEntry {α : Type} : List (Handle × α) → Handle → List (Handle × α)
  | [], _ => []
  | e :: t, h => if e.1 = h then t else e :: eraseEntry t h

/-- One step of the parent walk: the parent handle of `h`, if any. -/
def stepUp (t : Tree) (h : Handle) : Option Handle :=
  (lookupN t h).bind RNode.parent

/-- Fuelled ancestor walk: does repeated parent traversal from `cur`
reach `target` within `fuel` steps? -/
def reachesUp (t : Tree) : Nat → Handle → Handle → Bool
  | 0, cur, target => decide (cur = target)
  | Nat.succ fuel, cur, target =>
      decide (cur = target) ||
        (match stepUp t cur with
         | none => false
         | some q => reachesUp t fuel q target)

/-- Iterated parent step: the handle reached from `h` after exactly `k`
parent steps, if the walk does not fall off a root first. -/
def iterUp (t : Tree) : Nat → Handle → Option Handle
  | 0, h => some h
  | Nat.succ k, h => (stepUp t h).bind (iterUp t k)

/-- Modelled from the spec: the body of `Node::isbelow` is not in the
provided sources; the spec says `isBelow(candidate, ancestor)` is "true iff
repeated parent traversal from `candidate` reaches `ancestor`".  The walk is
fuelled by the number of nodes, which bounds the length of any simple
ancestor chain. -/
def isbelow (t : Tree) (cand anc : Handle) : Bool :=
  reachesUp t t.length cand anc

/-- The error vocabulary of `attach`/`setparent` from the spec's error
taxonomy. -/
inductive AttachError where
  | cycleError
deriving DecidableEq, Repr

/-- Modelled from the spec: the unlink half of `Node::setparent` (body not in
the provided sources) — remove the node from its current parent's child
collection, if it has a parent. -/
def detachFromParent (t : Tree) (n : Handle) : Tree :=
  match (lookupN t n).bind RNode.parent with
  | none => t
  | some op =>
      setNode t op
        (fun r => RNode.mk r.parent (r.children.filter (fun c => decide (c ≠ n))))

/-- The relink half of `setparent`: unlink from the old parent, set the
parent pointer, insert into the new parent's child collection. -/
def relink (t : Tree) (n p : Handle) : Tree :=
  setNode
    (setNode (detachFromParent t n) n (fun r => RNode.mk (some p) r.children))
    p
    (fun r => RNode.mk r.parent (n :: r.children))

/-- Modelled from the spec: the body of `Node::setparent` is not in the
provided sources; the spec's `attach(node, newParent)` "detaches `node` from
its current parent (if any); inserts into `newParent`'s children; fails with
`CycleError` if `newParent` is a descendant of `node` or if
`node == newParent`", using an O(depth) ancestor walk for cycle detection. -/
def attach (t : Tree) (n p : Handle) : Except AttachError Tree :=
  if isbelow t p n then Except.error AttachError.cycleError
  else Except.ok (relink t n p)

/-- The tree an attach leaves behind: the new tree on success, the original
tree unchanged on `CycleError` (rejected mutations are never partially
applied). -/
def attachResult (t : Tree) (n p : Handle) : Tree :=
  match attach t n p with
  | Except.ok t2 => t2
  | Except.error _ => t

/-- Mutual parent/children consistency: for all nodes `a` and `b` in the
tree, `a`'s parent pointer names `b` iff `a` is in `b`'s child collection.
Quantified over entries with a lookup guard so that it is decidable. -/
def consistent (t : Tree) : Prop :=
  ∀ a ∈ t, ∀ b ∈ t, lookupN t a.1 = some a.2 → lookupN t b.1 = some b.2 →
    (a.2.parent = some b.1 ↔ a.1 ∈ b.2.children)

/-- Every parent pointer names a node that exists in the tree. -/
def parentClosed (t : Tree) : Prop :=
  ∀ a ∈ t, lookupN t a.1 = some a.2 →
    a.2.parent.all (fun q => (lookupN t q).isSome) = true

/-- Well-formed tree: parent/children mutual consistency plus closure of
parent pointers. -/
def wfTree (t : Tree) : Prop := consistent t ∧ parentClosed t

instance (t : Tree) : Decidable (consistent t) := by
  unfold consistent
  infer_instance

instance (t : Tree) : Decidable (parentClosed t) := by
  unfold parentClosed
  infer_instance

instance (t : Tree) : Decidable (wfTree t) := by
  unfold wfTree
  infer_instance

/-- Two detached root nodes A (handle 1) and B (handle 2). -/
def treeAB0 : Tree := [(1, RNode.mk none []), (2, RNode.mk none [])]

/-- The tree after `attach(A, B)`: A is a child of B. -/
def treeAB1 : Tree := [(1, RNode.mk (some 2) []), (2, RNode.mk none [1])]

/-! ## Fingerprint index

`Fingerprints` in the header is a `std::multiset<FileFingerprint*,
FileFingerprintCmp>` plus a running size sum `mSumSizes`; each file `Node`
records its own position in the set (`fingerprint_it`). -/

/-- A content fingerprint: (size, modification time, content hash). -/
structure FileFingerprint where
  size : Int
  mtime : Int
  crc : List Nat
deriving DecidableEq, Repr

/-- Lexicographic order on content hashes. -/
def crcLt : List Nat → List Nat → Bool
  | [], [] => false
  | [], _ :: _ => true
  | _ :: _, [] => false
  | a :: as, b :: bs => if a < b then true else if b < a then false else crcLt as bs

/-- Modelled from the spec: the fingerprint comparator `FileFingerprintCmp`
(body not in the provided sources) — "size first, then modification time,
then content hash, to guarantee a total order even with collisions". -/
def fpLt (a b : FileFingerprint) : Bool :=
  if a.size < b.size then true
  else if b.size < a.size then false
  else if a.mtime < b.mtime then true
  else if b.mtime < a.mtime then false
  else crcLt a.crc b.crc

/-- Comparator equivalence: neither fingerprint is below the other. -/
def fpEquiv (a b : FileFingerprint) : Bool := !fpLt a b && !fpLt b a

/-- `Fingerprints` from the header: the ordered multi-container of
(node handle, fingerprint) entries and the running size sum `mSumSizes`. -/
structure Fingerprints where
  mFingerprints : List (Handle × FileFingerprint)
  mSumSizes : Int
deriving DecidableEq, Repr

/-- Multiset insertion at the upper bound of the comparator order: the new
entry goes after every entry that is not strictly greater. -/
def insertFP (e : Handle × FileFingerprint) :
    List (Handle × FileFingerprint) → List (Handle × FileFingerprint)
  | [] => [e]
  | x :: xs => if fpLt e.2 x.2 then e :: x :: xs else x :: insertFP e xs

/-- `Fingerprints::getSumSizes`: the running size sum. -/
def Fingerprints.getSumSizes (f : Fingerprints) : Int := f.mSumSizes

/-- Modelled from the spec: `Fingerprints::nodebyfingerprint` (body not in
the provided sources) — the "lowest node comparing equal to `fp`, or none". -/
def Fingerprints.nodebyfingerprint (f : Fingerprints) (fp : FileFingerprint) :
    Option Handle :=
  (f.mFingerprints.find? (fun e => fpEquiv e.2 fp)).map Prod.fst

/-- Modelled from the spec: `Fingerprints::nodesbyfingerprint` (body not in
the provided sources) — "all nodes comparing equal to `fp`, in index
order". -/
def Fingerprints.nodesbyfingerprint (f : Fingerprints) (fp : FileFingerprint) :
    List Handle :=
  (f.mFingerprints.filter (fun e => fpEquiv e.2 fp)).map Prod.fst

/-- The fingerprint-relevant part of a `Node`: its type, its resolved
fingerprint if any, and `fingerprint_it` — whether the node currently holds
a valid position inside the fingerprint set. -/
structure FNodeRec where
  ntype : NType
  fp : Option FileFingerprint
  fingerprint_it : Bool
deriving DecidableEq, Repr

/-- Fingerprint-index system state: the index plus all nodes (keyed by
handle). -/
structure FPState where
  idx : Fingerprints
  nodes : List (Handle × FNodeRec)
deriving DecidableEq, Repr

/-- Sum of the sizes of all indexed entries. -/
def sumSizes (l : List (Handle × FileFingerprint)) : Int :=
  (l.map (fun e => e.2.size)).sum

/-- Modelled from the spec: `Fingerprints::remove` (body not in the provided
sources) — "erases the exact iterator position recorded on the node (not a
value-based search); decrements running size sum. No-op, not an error, if
the node has no recorded position."  The recorded position is the node's own
entry, identified by its handle (entry handles are unique). -/
def fpRemove (s : FPState) (i : Handle) : FPState :=
  match lookupN s.nodes i with
  | none => s
  | some nd =>
      if nd.fingerprint_it then
        match nd.fp with
        | none => s
        | some f =>
            FPState.mk
              (Fingerprints.mk (eraseEntry s.idx.mFingerprints i)
                (s.idx.mSumSizes - f.size))
              (setNode s.nodes i (fun m => FNodeRec.mk m.ntype m.fp false))
      else s

/-- Modelled from the spec: `Fingerprints::add`/`newnode` (bodies not in the
provided sources) — "inserts into the ordered multi-container using the
fingerprint comparator; updates running size sum", called by the tree for a
file node whose fingerprint is resolved and which is not yet indexed; the
node records its position (`fingerprint_it`). -/
def fpAdd (s : FPState) (i : Handle) : FPState :=
  match lookupN s.nodes i with
  | none => s
  | some nd =>
      if nd.ntype = NType.filenode ∧ nd.fingerprint_it = false then
        match nd.fp with
        | none => s
        | some f =>
            FPState.mk
              (Fingerprints.mk (insertFP (i, f) s.idx.mFingerprints)
                (s.idx.mSumSizes + f.size))
              (setNode s.nodes i (fun m => FNodeRec.mk m.ntype m.fp true))
      else s

/-- Modelled from the spec: `Node::setfingerprint` / `setAttributes` (bodies
not in the provided sources) — "updates FingerprintIndex membership if the
fingerprint changed": drop the node's current index position, store the new
fingerprint, then re-index it when it is a file node with a resolved
fingerprint. -/
def setfingerprint (s : FPState) (i : Handle) (newfp : Option FileFingerprint) :
    FPState :=
  match lookupN s.nodes i with
  | none => s
  | some _ =>
      let s1 := fpRemove s i
      let s2 := FPState.mk s1.idx
        (setNode s1.nodes i (fun m => FNodeRec.mk m.ntype newfp false))
      fpAdd s2 i

/-- Modelled from the spec: node destruction (`~Node`, body not in the
provided sources) — a destroyed node leaves the fingerprint index and the
node table. -/
def removeNode (s : FPState) (i : Handle) : FPState :=
  let s1 := fpRemove s i
  FPState.mk s1.idx (s1.nodes.filter (fun e => decide (e.1 ≠ i)))

/-- The fingerprint-index invariant of the spec: node handles and index
entries are uniquely keyed, the running size sum equals the sum of the sizes
of all indexed entries, a node holds an index position iff it is a file node
with a resolved fingerprint, every held position is an entry carrying the
node's fingerprint, and every entry is owned by exactly such a node. -/
def FPInv (s : FPState) : Prop :=
  (s.nodes.map Prod.fst).Nodup ∧
  (s.idx.mFingerprints.map Prod.fst).Nodup ∧
  s.idx.mSumSizes = sumSizes s.idx.mFingerprints ∧
  (∀ e ∈ s.nodes,
    (e.2.fingerprint_it = true ↔ (e.2.ntype = NType.filenode ∧ e.2.fp.isSome = true))) ∧
  (∀ e ∈ s.nodes, e.2.fingerprint_it = true →
    ∀ f ∈ e.2.fp, (e.1, f) ∈ s.idx.mFingerprints) ∧
  (∀ g ∈ s.idx.mFingerprints, ∃ e ∈ s.nodes,
    e.1 = g.1 ∧ e.2.fingerprint_it = true ∧ e.2.fp = some g.2)

instance (s : FPState) : Decidable (FPInv s) := by
  unfold FPInv
  infer_instance

/-- The shared fingerprint of spec Scenario A: size 100, hash H. -/
def fpH : FileFingerprint := FileFingerprint.mk 100 5 [7]

/-- Scenario A start state: two file nodes F1 (handle 1) and F2 (handle 2),
fingerprints not yet resolved, empty index. -/
def scenA0 : FPState :=
  FPState.mk (Fingerprints.mk [] 0)
    [(1, FNodeRec.mk NType.filenode none false),
     (2, FNodeRec.mk NType.filenode none false)]

/-- Scenario A after both fingerprints resolve to `fpH`. -/
def scenA2 : FPState := setfingerprint (setfingerprint scenA0 1 (some fpH)) 2 (some fpH)

/-! ## Key resolution (`Node::applykey`)

The cipher is an external collaborator: an opaque
`decrypt(key, ciphertext) -> Option plaintext` function passed in as a
parameter.  Share keys are identified by numeric key ids. -/

/-- The key-resolution-relevant part of a `Node`: the raw or cooked
encrypted key material (`nodekey`), the `foreignkey` flag, the resolved key
when resolution succeeded, and whether the attributes have been decoded. -/
structure KeyNode where
  nodekey : List Nat
  foreignkey : Bool
  resolvedKey : Option (List Nat)
  attrsDecoded : Bool
deriving DecidableEq, Repr

/-- A node key is cooked when its length matches the folder-key or the
file/folder-key length (comment on `NodeCore::nodekey` in the header). -/
def cookedKey (k : List Nat) : Bool :=
  decide (k.length = FOLDERNODEKEYLENGTH) ||
    decide (k.length = FILEFOLDERNODEKEYLENGTH)

/-- Walk the ancestor share keys upward, attempting to decode the key with
each present share key in turn; returns the first successful plaintext and
the number of cipher invocations made. -/
def tryAncestors (decryptK : Nat → List Nat → Option (List Nat)) :
    List (Option Nat) → List Nat → Option (List Nat) × Nat
  | [], _ => (none, 0)
  | none :: rest, ck => tryAncestors decryptK rest ck
  | some k :: rest, ck =>
      match decryptK k ck with
      | some pt => (some pt, 1)
      | none =>
          ((tryAncestors decryptK rest ck).1, (tryAncestors decryptK rest ck).2 + 1)

/-- Every share key present among the ancestors fails to decode the key. -/
def ancFails (decryptK : Nat → List Nat → Option (List Nat))
    (anc : List (Option Nat)) (ck : List Nat) : Prop :=
  ∀ a ∈ anc, ∀ k ∈ a, decryptK k ck = none

instance (d : Nat → List Nat → Option (List Nat)) (anc : List (Option Nat))
    (ck : List Nat) : Decidable (ancFails d anc ck) := by
  unfold ancFails
  infer_instance

/-- Modelled from the spec: `Node::applykey` (body not in the provided
sources), spec 4.4 `resolveKey` — an already-resolved node is left untouched
without invoking the cipher; otherwise, if the key is cooked and the node is
not `foreignkey`, it is decoded directly against the tree's own master key
(failure marks the node `foreignkey` with attributes still undecoded);
otherwise decoding is attempted against each ancestor's share key walking
upward, the first success winning; if no ancestor key succeeds, `foreignkey`
is set and the attributes remain undecoded — a normal state, not an error.
Returns the new node state and the number of cipher invocations. -/
def applykey (decryptK : Nat → List Nat → Option (List Nat)) (masterKey : Nat)
    (n : KeyNode) (ancShareKeys : List (Option Nat)) : KeyNode × Nat :=
  if n.resolvedKey.isSome then (n, 0)
  else if cookedKey n.nodekey && !n.foreignkey then
    match decryptK masterKey n.nodekey with
    | some pt => (KeyNode.mk n.nodekey n.foreignkey (some pt) true, 1)
    | none => (KeyNode.mk n.nodekey true n.resolvedKey n.attrsDecoded, 1)
  else
    match tryAncestors decryptK ancShareKeys n.nodekey with
    | (some pt, c) => (KeyNode.mk n.nodekey n.foreignkey (some pt) true, c)
    | (none, c) => (KeyNode.mk n.nodekey true n.resolvedKey n.attrsDecoded, c)

/-- Scenario C cooked key: the file/folder cooked length, all bytes 3. -/
def goodKey : List Nat := List.replicate 32 3

/-- Scenario C flipped key: `goodKey` with its first byte flipped. -/
def badKey : List Nat := 4 :: List.replicate 31 3

/-- A concrete cipher collaborator: key id 9 decodes exactly `goodKey`. -/
def scDecrypt : Nat → List Nat → Option (List Nat) :=
  fun k ck => if k = 9 ∧ ck = goodKey then some (List.replicate 32 7) else none

/-- A raw (uncooked) key, longer than both cooked lengths. -/
def rawKey : List Nat := List.replicate 40 2

/-- A concrete cipher collaborator for the ancestor walk: share key id 9
decodes exactly `rawKey`. -/
def anDecrypt : Nat → List Nat → Option (List Nat) :=
  fun k ck => if k = 9 ∧ ck = rawKey then some [1] else none

/-! ## Serialization: persisted records and two-pass reconstruction -/

/-- The persisted payload of a node: parent link (`none` for a root), type,
size, encrypted key blob and encrypted attribute blob. -/
structure SNode where
  parent : Option Handle
  ntype : NType
  size : Int
  keydata : List Nat
  attrdata : List Nat
deriving DecidableEq, Repr

/-- A serializable tree: nodes keyed by handle. -/
abbrev STree := List (Handle × SNode)

/-- One persisted record (spec 6): own handle, stored parent handle (a
placeholder until second-pass linking), type, size, key blob and attribute
blob. -/
structure NodeRecord where
  handle : Handle
  parenthandle : Option Handle
  ntype : NType
  size : Int
  keydata : List Nat
  attrdata : List Nat
deriving DecidableEq, Repr

/-- Modelled from the spec: `Node::serialize` (body not in the provided
sources) — encode one node into its persisted record, the parent pointer
becoming a stored parent handle. -/
def serializeNode (e : Handle × SNode) : NodeRecord :=
  NodeRecord.mk e.1 e.2.parent e.2.ntype e.2.size e.2.keydata e.2.attrdata

/-- Serialize a whole tree, record by record, in tree order. -/
def serializeTree (t : STree) : List NodeRecord := t.map serializeNode

/-- Find the record carrying a given handle. -/
def findRecord (rs : List NodeRecord) (h : Handle) : Option NodeRecord :=
  rs.find? (fun r => decide (r.handle = h))

/-- Does some record of the stream carry this handle? -/
def recHasHandle (rs : List NodeRecord) (h : Handle) : Bool :=
  rs.any (fun r => decide (r.handle = h))

/-- Is a node with this handle present in the tree? -/
def hasHandle (t : STree) (h : Handle) : Bool :=
  t.any (fun e => decide (e.1 = h))

/-- Modelled from the spec: pass 1 of `Node::unserialize` (body not in the
provided sources) — "materializes every node keyed by its own handle", the
parent pointer still unset. -/
def pass1 (rs : List NodeRecord) : STree :=
  rs.map (fun r => (r.handle, SNode.mk none r.ntype r.size r.keydata r.attrdata))

/-- Pass-2 resolution of one node: if its record stores a parent handle that
names a materialized node, link the parent pointer; otherwise the node is
kept as an orphan root rather than failing. -/
def resolveRecord (rs : List NodeRecord) (t0 : STree) (h : Handle)
    (sn : SNode) : SNode :=
  match findRecord rs h with
  | none => sn
  | some r =>
      match r.parenthandle with
      | none => sn
      | some ph =>
          if hasHandle t0 ph then
            SNode.mk (some ph) sn.ntype sn.size sn.keydata sn.attrdata
          else sn

/-- Modelled from the spec: pass 2 of `Node::unserialize` — "resolves parent
handles into actual parent pointers and inserts into the appropriate child
collection"; child collections are derived from the parent links by
`childrenOf`. -/
def pass2 (rs : List NodeRecord) (t0 : STree) : STree :=
  t0.map (fun e => (e.1, resolveRecord rs t0 e.1 e.2))

/-- Two-pass deserialization of a record stream. -/
def unserializeTree (rs : List NodeRecord) : STree := pass2 rs (pass1 rs)

/-- A node's child collection, derived from the parent links, in tree
order. -/
def childrenOf (t : STree) (h : Handle) : List Handle :=
  (t.filter (fun e => decide (e.2.parent = some h))).map Prod.fst

/-- A concrete two-node tree for the round-trip witness: folder 1 with file
child 2. -/
def demoTree : STree :=
  [(1, SNode.mk none NType.foldernode 0 [5] [6]),
   (2, SNode.mk (some 1) NType.filenode 10 [7] [8])]

/-- Scenario D child record: node 2, stored parent handle 1. -/
def childRec : NodeRecord := NodeRecord.mk 2 (some 1) NType.filenode 10 [7] [8]

/-- Scenario D parent record: node 1, a root. -/
def parentRec : NodeRecord := NodeRecord.mk 1 none NType.foldernode 0 [5] [6]

/-- Scenario D stream: the child record precedes its parent record. -/
def streamD : List NodeRecord := [childRec, parentRec]

/-- A one-record stream whose stored parent handle resolves to nothing. -/
def streamOrphan : List NodeRecord :=
  [NodeRecord.mk 3 (some 99) NType.filenode 7 [1] [2]]

/-- Claim C10: every NewNode carries a fixed-size upload token of exactly
UPLOADTOKENLEN = 36 bytes; OLDUPLOADTOKENLEN = 27 is a distinct legacy
constant; the token buffer length is identical for every NewNode. -/
theorem newnode_uploadtoken_fixed_size :
    UPLOADTOKENLEN = 36 ∧ OLDUPLOADTOKENLEN = 27 ∧ UPLOADTOKENLEN ≠ OLDUPLOADTOKENLEN ∧
    (∀ n : NewNode, n.uploadtoken.val.length = UPLOADTOKENLEN) ∧
    (∀ n m : NewNode, n.uploadtoken.val.length = m.uploadtoken.val.length) := by
  refine ⟨rfl, rfl, by decide, fun n => n.uploadtoken.property, fun n m => ?_⟩
  rw [n.uploadtoken.property, m.uploadtoken.property]

/-- Claim C9: for every PublicLink, `isExpired` returns true iff an expiry
time is set (nonzero `ets`) and that time has elapsed (`ets < now`). -/
theorem publiclink_isExpired_iff (l : PublicLink) (now : Int) :
    l.isExpired now = true ↔ (l.ets ≠ 0 ∧ l.ets < now) := by
  unfold PublicLink.isExpired
  rw [Bool.and_eq_true, bne_iff_ne, decide_eq_true_eq]

/-! ## Tree lemmas -/

theorem lookupN_eq_some_mem {α : Type} (t : List (Handle × α)) (h : Handle) (r : α)
    (hl : lookupN t h = some r) : (h, r) ∈ t := by
  induction t with
  | nil => simp [lookupN] at hl
  | cons e t ih =>
      by_cases he : e.1 = h
      · simp only [lookupN, if_pos he, Option.some.injEq] at hl
        subst hl
        subst he
        exact List.mem_cons_self _ _
      · simp only [lookupN, if_neg he] at hl
        exact List.mem_cons_of_mem _ (ih hl)

theorem lookupN_setNode {α : Type} (t : List (Handle × α)) (h a : Handle) (f : α → α) :
    lookupN (setNode t h f) a =
      if a = h then (lookupN t a).map f else lookupN t a := by
  induction t with
  | nil => simp [lookupN, setNode]
  | cons e t ih =>
      by_cases heh : e.1 = h
      · by_cases hea : e.1 = a
        · have hah : a = h := hea.symm.trans heh
          simp [setNode, lookupN, heh, hea, hah]
        · have hah : ¬(a = h) := fun hx => hea (heh.trans hx.symm)
          have hha : ¬(h = a) := fun hx => hea (heh.trans hx)
          simp [setNode, lookupN, heh, hea, hah, hha, ih]
      · by_cases hea : e.1 = a
        · have hah : ¬(a = h) := fun hx => heh (hea.trans hx)
          simp [setNode, lookupN, heh, hea, hah]
        · simp [setNode, lookupN, heh, hea, ih]

theorem lookupN_detach (t : Tree) (n a : Handle) :
    lookupN (detachFromParent t n) a =
      match (lookupN t n).bind RNode.parent with
      | none => lookupN t a
      | some q =>
          if a = q then
            (lookupN t a).map
              (fun r => RNode.mk r.parent (r.children.filter (fun c => decide (c ≠ n))))
          else lookupN t a := by
  unfold detachFromParent
  cases hq : (lookupN t n).bind RNode.parent with
  | none => rfl
  | some q => rw [lookupN_setNode]

theorem lookupN_relink (t : Tree) (n p a : Handle) :
    lookupN (relink t n p) a =
      (if a = p
        then (if a = n
                then (lookupN (detachFromParent t n) a).map
                       (fun r => RNode.mk (some p) r.children)
                else lookupN (detachFromParent t n) a).map
              (fun r => RNode.mk r.parent (n :: r.children))
        else (if a = n
                then (lookupN (detachFromParent t n) a).map
                       (fun r => RNode.mk (some p) r.children)
                else lookupN (detachFromParent t n) a)) := by
  unfold relink
  rw [lookupN_setNode, lookupN_setNode]

theorem lookupN_detach_of_lookup (t : Tree) (n : Handle) (nd : RNode)
    (hnd : lookupN t n = some nd) (a : Handle) :
    lookupN (detachFromParent t n) a =
      match nd.parent with
      | none => lookupN t a
      | some q =>
          if a = q then
            (lookupN t a).map
              (fun r => RNode.mk r.parent (r.children.filter (fun c => decide (c ≠ n))))
          else lookupN t a := by
  rw [lookupN_detach]
  simp only [hnd, Option.some_bind]

theorem relink_isSome (t : Tree) (n p : Handle) (nd : RNode)
    (hnd : lookupN t n = some nd) (x : Handle) :
    (lookupN (relink t n p) x).isSome = (lookupN t x).isSome := by
  rw [lookupN_relink, lookupN_detach_of_lookup t n nd hnd x]
  rcases hq : nd.parent with _ | q
  · by_cases hxp : x = p <;> by_cases hxn : x = n <;>
      cases hlk : lookupN t x <;> simp_all
  · by_cases hxp : x = p <;> by_cases hxn : x = n <;> by_cases hxq : x = q <;>
      cases hlk : lookupN t x <;> simp_all

theorem relink_parent_map (t : Tree) (n p : Handle) (nd : RNode)
    (hnd : lookupN t n = some nd) (x : Handle) :
    (lookupN (relink t n p) x).map RNode.parent =
      (if x = n then (lookupN t x).map (fun _ => some p)
       else (lookupN t x).map RNode.parent) := by
  rw [lookupN_relink, lookupN_detach_of_lookup t n nd hnd x]
  rcases hq : nd.parent with _ | q
  · by_cases hxp : x = p <;> by_cases hxn : x = n <;>
      cases hlk : lookupN t x <;> simp_all
  · by_cases hxp : x = p <;> by_cases hxn : x = n <;> by_cases hxq : x = q <;>
      cases hlk : lookupN t x <;> simp_all

theorem relink_children_mem (t : Tree) (n p : Handle) (nd : RNode)
    (hnd : lookupN t n = some nd) (x c : Handle) :
    (lookupN (relink t n p) x).map (fun r => decide (c ∈ r.children)) =
      (lookupN t x).map
        (fun r => decide ((x = p ∧ c = n) ∨
          (c ∈ r.children ∧ ¬(c = n ∧ nd.parent = some x)))) := by
  rw [lookupN_relink, lookupN_detach_of_lookup t n nd hnd x]
  rcases hq : nd.parent with _ | q
  · by_cases hxp : x = p <;> by_cases hxn : x = n <;> by_cases hcn : c = n <;>
      cases hlk : lookupN t x <;> simp_all [List.mem_filter]
  · by_cases hxp : x = p <;> by_cases hxn : x = n <;> by_cases hxq : x = q <;>
      by_cases hcn : c = n <;>
      cases hlk : lookupN t x <;> simp_all [List.mem_filter] <;>
      exact fun _ h2 => hxq h2.symm

theorem relink_wf (t : Tree) (n p : Handle) (hwf : wfTree t)
    (hn : (lookupN t n).isSome = true) (hp : (lookupN t p).isSome = true) :
    wfTree (relink t n p) := by
  obtain ⟨hc, hpc⟩ := hwf
  obtain ⟨nd, hnd⟩ := Option.isSome_iff_exists.mp hn
  have hcl : ∀ x y xd yd, lookupN t x = some xd → lookupN t y = some yd →
      (xd.parent = some y ↔ x ∈ yd.children) := by
    intro x y xd yd hx hy
    exact hc (x, xd) (lookupN_eq_some_mem t x xd hx) (y, yd)
      (lookupN_eq_some_mem t y yd hy) hx hy
  have hSome : ∀ x, (lookupN (relink t n p) x).isSome = (lookupN t x).isSome :=
    relink_isSome t n p nd hnd
  have hParOf : ∀ x xd2, lookupN (relink t n p) x = some xd2 →
      ∃ xd, lookupN t x = some xd ∧
        xd2.parent = (if x = n then some p else xd.parent) := by
    intro x xd2 hx2
    have he := relink_parent_map t n p nd hnd x
    rw [hx2, Option.map_some'] at he
    by_cases han : x = n
    · rw [if_pos han] at he
      obtain ⟨xd, hlk, hfx⟩ := Option.map_eq_some'.mp he.symm
      exact ⟨xd, hlk, by rw [if_pos han]; exact hfx.symm⟩
    · rw [if_neg han] at he
      obtain ⟨xd, hlk, hfx⟩ := Option.map_eq_some'.mp he.symm
      exact ⟨xd, hlk, by rw [if_neg han]; exact hfx.symm⟩
  have hChildOf : ∀ x xd2 c, lookupN (relink t n p) x = some xd2 →
      ∃ xd, lookupN t x = some xd ∧
        (c ∈ xd2.children ↔
          ((x = p ∧ c = n) ∨ (c ∈ xd.children ∧ ¬(c = n ∧ nd.parent = some x)))) := by
    intro x xd2 c hx2
    have he := relink_children_mem t n p nd hnd x c
    rw [hx2, Option.map_some'] at he
    obtain ⟨xd, hlk, hfx⟩ := Option.map_eq_some'.mp he.symm
    exact ⟨xd, hlk, (decide_eq_decide.mp hfx).symm⟩
  constructor
  · intro a _ b _ hla hlb
    obtain ⟨ad, had, hadp⟩ := hParOf a.1 a.2 hla
    obtain ⟨bd, hbd, hbdc⟩ := hChildOf b.1 b.2 a.1 hlb
    rw [hadp, hbdc]
    by_cases han : a.1 = n
    · rw [if_pos han]
      subst han
      have hadnd : ad = nd := by rw [had] at hnd; injection hnd
      subst hadnd
      constructor
      · intro hpb
        have hbp : b.1 = p := by injection hpb with h3; exact h3.symm
        exact Or.inl ⟨hbp, rfl⟩
      · intro hor
        rcases hor with ⟨hbp, _⟩ | ⟨hmem, hneg⟩
        · rw [hbp]
        · exact absurd ⟨rfl, (hcl a.1 b.1 ad bd had hbd).mpr hmem⟩ hneg
    · rw [if_neg han]
      have hiff := hcl a.1 b.1 ad bd had hbd
      constructor
      · intro hpb
        exact Or.inr ⟨hiff.mp hpb, fun hco => han hco.1⟩
      · intro hor
        rcases hor with ⟨_, hcn⟩ | ⟨hmem, _⟩
        · exact absurd hcn han
        · exact hiff.mpr hmem
  · intro a _ hla
    obtain ⟨ad, had, hadp⟩ := hParOf a.1 a.2 hla
    by_cases han : a.1 = n
    · rw [if_pos han] at hadp
      rw [hadp]
      simp only [Option.all]
      rw [hSome p]
      exact hp
    · rw [if_neg han] at hadp
      rw [hadp]
      have hone := hpc (a.1, ad) (lookupN_eq_some_mem t a.1 ad had) had
      cases hq2 : ad.parent with
      | none => simp [Option.all]
      | some q2 =>
          rw [hq2] at hone
          simp only [Option.all] at hone ⊢
          rw [hSome q2]
          exact hone

/-- Claim C1: mutual consistency of the parent pointer and the parent's
child collection — for every node `a` in the tree, `a` is in `b`'s child
collection iff `a`'s parent pointer names `b` (so a root is in no child
collection) — is preserved by every attach/detach (`setparent`) operation,
whether it succeeds or is rejected. -/
theorem setparent_preserves_consistency (t : Tree) (n p : Handle)
    (hwf : wfTree t) (hn : (lookupN t n).isSome = true)
    (hp : (lookupN t p).isSome = true) :
    wfTree (attachResult t n p) := by
  unfold attachResult attach
  by_cases hcyc : isbelow t p n = true
  · simp only [if_pos hcyc]
    exact hwf
  · simp only [if_neg hcyc]
    exact relink_wf t n p hwf hn hp

/-- Witness for C1 at a concrete input: attaching node 1 under node 2 in a
two-root tree preserves the consistency invariant. -/
theorem setparent_preserves_consistency_witness :
    wfTree treeAB0 ∧ wfTree (attachResult treeAB0 1 2) :=
  ⟨by decide, setparent_preserves_consistency treeAB0 1 2 (by decide) (by decide) (by decide)⟩

theorem reachesUp_self (t : Tree) (fuel : Nat) (h : Handle) :
    reachesUp t fuel h h = true := by
  cases fuel <;> simp [reachesUp]

theorem reachesUp_of_iterUp (t : Tree) (k : Nat) :
    ∀ fuel cur target, k ≤ fuel → iterUp t k cur = some target →
      reachesUp t fuel cur target = true := by
  induction k with
  | zero =>
      intro fuel cur target _ hit
      simp only [iterUp, Option.some.injEq] at hit
      subst hit
      exact reachesUp_self t fuel cur
  | succ k ih =>
      intro fuel cur target hk hit
      simp only [iterUp] at hit
      obtain ⟨q, hq, hrest⟩ := Option.bind_eq_some.mp hit
      cases fuel with
      | zero => omega
      | succ fuel =>
          simp only [reachesUp, hq, Bool.or_eq_true]
          exact Or.inr (ih fuel q target (Nat.le_of_succ_le_succ hk) hrest)

/-- Claim C2: if `p` is a descendant of `n` or equal to it (the parent walk
from `p` reaches `n` in at most as many steps as there are nodes), then
`attach(n, p)` fails with CycleError and the tree is left entirely
unchanged. -/
theorem attach_cycle_error (t : Tree) (n p : Handle) (k : Nat)
    (hk : k ≤ t.length) (hdesc : iterUp t k p = some n) :
    attach t n p = Except.error AttachError.cycleError ∧ attachResult t n p = t := by
  have hb : isbelow t p n = true :=
    reachesUp_of_iterUp t k t.length p n hk hdesc
  constructor
  · unfold attach
    rw [if_pos hb]
  · unfold attachResult attach
    rw [if_pos hb]

/-- Witness for C2, spec Scenario B: `attach(A, B)` succeeds, the subsequent
`attach(B, A)` fails with CycleError, the tree is unchanged and A (handle 1)
remains a child of B (handle 2). -/
theorem attach_cycle_error_witness :
    attach treeAB0 1 2 = Except.ok treeAB1 ∧
    attach treeAB1 2 1 = Except.error AttachError.cycleError ∧
    attachResult treeAB1 2 1 = treeAB1 ∧
    lookupN treeAB1 2 = some (RNode.mk none [1]) := by
  refine ⟨rfl, ?_, ?_, rfl⟩
  · exact (attach_cycle_error treeAB1 2 1 1 (by decide) rfl).1
  · exact (attach_cycle_error treeAB1 2 1 1 (by decide) rfl).2

/-! ## Association-list and fingerprint-index lemmas -/

theorem setNode_map_fst {α : Type} (t : List (Handle × α)) (h : Handle) (f : α → α) :
    (setNode t h f).map Prod.fst = t.map Prod.fst := by
  induction t with
  | nil => rfl
  | cons e t ih =>
      by_cases he : e.1 = h <;> simp [setNode, he, ih]

theorem mem_setNode {α : Type} (t : List (Handle × α)) (h : Handle) (f : α → α)
    (x : Handle × α) :
    x ∈ setNode t h f ↔ ∃ e ∈ t, x = (if e.1 = h then (e.1, f e.2) else e) := by
  induction t with
  | nil => simp [setNode]
  | cons e t ih => simp [setNode, ih]

theorem lookupN_of_mem_nodup {α : Type} (t : List (Handle × α))
    (hnd : (t.map Prod.fst).Nodup) (e : Handle × α) (he : e ∈ t) :
    lookupN t e.1 = some e.2 := by
  induction t with
  | nil => cases he
  | cons x t ih =>
      rw [List.map_cons, List.nodup_cons] at hnd
      rcases List.mem_cons.mp he with rfl | hmem
      · simp [lookupN]
      · have hx : ¬(x.1 = e.1) := by
          intro hx
          exact hnd.1 (hx ▸ List.mem_map_of_mem Prod.fst hmem)
        rw [lookupN, if_neg hx]
        exact ih hnd.2 hmem

theorem entry_eq_of_nodup {α : Type} (t : List (Handle × α))
    (hnd : (t.map Prod.fst).Nodup) (e1 e2 : Handle × α)
    (h1 : e1 ∈ t) (h2 : e2 ∈ t) (hfst : e1.1 = e2.1) : e1 = e2 := by
  have l1 := lookupN_of_mem_nodup t hnd e1 h1
  have l2 := lookupN_of_mem_nodup t hnd e2 h2
  rw [hfst, l2] at l1
  cases e1
  cases e2
  simp_all

theorem eraseEntry_sublist {α : Type} (t : List (Handle × α)) (h : Handle) :
    List.Sublist (eraseEntry t h) t := by
  induction t with
  | nil => simp [eraseEntry]
  | cons e t ih =>
      by_cases he : e.1 = h
      · rw [eraseEntry, if_pos he]
        exact List.sublist_cons_self e t
      · rw [eraseEntry, if_neg he]
        exact List.Sublist.cons₂ e ih

theorem mem_eraseEntry_of_nodup {α : Type} (t : List (Handle × α))
    (hnd : (t.map Prod.fst).Nodup) (h : Handle) (g : Handle × α) :
    g ∈ eraseEntry t h ↔ (g ∈ t ∧ g.1 ≠ h) := by
  induction t with
  | nil => simp [eraseEntry]
  | cons e t ih =>
      rw [List.map_cons, List.nodup_cons] at hnd
      by_cases he : e.1 = h
      · rw [eraseEntry, if_pos he]
        constructor
        · intro hg
          refine ⟨List.mem_cons_of_mem _ hg, fun hgh => ?_⟩
          exact hnd.1 ((he ▸ hgh) ▸ List.mem_map_of_mem Prod.fst hg)
        · rintro ⟨hg, hne⟩
          rcases List.mem_cons.mp hg with rfl | hmem
          · exact absurd he hne
          · exact hmem
      · rw [eraseEntry, if_neg he]
        constructor
        · intro hg
          rcases List.mem_cons.mp hg with rfl | hmem
          · exact ⟨List.mem_cons_self _ _, he⟩
          · obtain ⟨hm, hne⟩ := (ih hnd.2).mp hmem
            exact ⟨List.mem_cons_of_mem _ hm, hne⟩
        · rintro ⟨hg, hne⟩
          rcases List.mem_cons.mp hg with rfl | hmem
          · exact List.mem_cons_self _ _
          · exact List.mem_cons_of_mem _ ((ih hnd.2).mpr ⟨hmem, hne⟩)

theorem sumSizes_cons (e : Handle × FileFingerprint)
    (t : List (Handle × FileFingerprint)) :
    sumSizes (e :: t) = e.2.size + sumSizes t := by
  simp [sumSizes]

theorem sumSizes_eraseEntry (t : List (Handle × FileFingerprint))
    (hnd : (t.map Prod.fst).Nodup) (i : Handle) (f : FileFingerprint)
    (hmem : (i, f) ∈ t) :
    sumSizes (eraseEntry t i) = sumSizes t - f.size := by
  induction t with
  | nil => cases hmem
  | cons e t ih =>
      rw [List.map_cons, List.nodup_cons] at hnd
      by_cases he : e.1 = i
      · rw [eraseEntry, if_pos he]
        rcases List.mem_cons.mp hmem with heq | hmem'
        · rw [sumSizes_cons]
          have hf : e.2.size = f.size := by rw [← heq]
          omega
        · exact absurd (he ▸ List.mem_map_of_mem Prod.fst hmem') hnd.1
      · rcases List.mem_cons.mp hmem with heq | hmem'
        · exact absurd (congrArg Prod.fst heq.symm) he
        · rw [eraseEntry, if_neg he, sumSizes_cons, sumSizes_cons, ih hnd.2 hmem']
          omega

theorem insertFP_perm (e : Handle × FileFingerprint)
    (l : List (Handle × FileFingerprint)) :
    (insertFP e l).Perm (e :: l) := by
  induction l with
  | nil => exact List.Perm.refl _
  | cons x xs ih =>
      by_cases hlt : fpLt e.2 x.2
      · rw [insertFP, if_pos hlt]
      · rw [insertFP, if_neg hlt]
        exact (ih.cons x).trans (List.Perm.swap e x xs)

theorem mem_insertFP (e g : Handle × FileFingerprint)
    (l : List (Handle × FileFingerprint)) :
    g ∈ insertFP e l ↔ (g = e ∨ g ∈ l) := by
  rw [(insertFP_perm e l).mem_iff, List.mem_cons]

theorem sumSizes_insertFP (e : Handle × FileFingerprint)
    (l : List (Handle × FileFingerprint)) :
    sumSizes (insertFP e l) = e.2.size + sumSizes l := by
  unfold sumSizes
  rw [((insertFP_perm e l).map (fun g => g.2.size)).sum_eq]
  simp

theorem nodup_map_fst_insertFP (e : Handle × FileFingerprint)
    (l : List (Handle × FileFingerprint))
    (hni : e.1 ∉ l.map Prod.fst) (hnd : (l.map Prod.fst).Nodup) :
    ((insertFP e l).map Prod.fst).Nodup := by
  rw [((insertFP_perm e l).map Prod.fst).nodup_iff, List.map_cons, List.nodup_cons]
  exact ⟨hni, hnd⟩

theorem fpRemove_facts (s : FPState) (i : Handle) (nd : FNodeRec)
    (hinv : FPInv s) (hnd : lookupN s.nodes i = some nd) :
    (∀ x, lookupN (fpRemove s i).nodes x =
       if x = i then some (FNodeRec.mk nd.ntype nd.fp false) else lookupN s.nodes x) ∧
    ((fpRemove s i).nodes.map Prod.fst).Nodup ∧
    ((fpRemove s i).idx.mFingerprints.map Prod.fst).Nodup ∧
    (fpRemove s i).idx.mSumSizes = sumSizes (fpRemove s i).idx.mFingerprints ∧
    (∀ g ∈ (fpRemove s i).idx.mFingerprints, g.1 ≠ i) ∧
    (∀ g ∈ (fpRemove s i).idx.mFingerprints, g ∈ s.idx.mFingerprints) ∧
    (∀ g ∈ s.idx.mFingerprints, g.1 ≠ i → g ∈ (fpRemove s i).idx.mFingerprints) ∧
    (∀ e ∈ (fpRemove s i).nodes, e.1 ≠ i → e ∈ s.nodes) ∧
    (∀ e ∈ s.nodes, e.1 ≠ i → e ∈ (fpRemove s i).nodes) := by
  obtain ⟨hN, hE, hS, hMem, hFlag, hOwn⟩ := hinv
  have hmemnd : (i, nd) ∈ s.nodes := lookupN_eq_some_mem s.nodes i nd hnd
  by_cases hfl : nd.fingerprint_it = true
  · obtain ⟨hfile, hsome⟩ := (hMem (i, nd) hmemnd).mp hfl
    obtain ⟨f, hf⟩ := Option.isSome_iff_exists.mp hsome
    have hf2 : nd.fp = some f := hf
    have hfmem : f ∈ nd.fp := by rw [Option.mem_def, hf2]
    have hentry : (i, f) ∈ s.idx.mFingerprints := hFlag (i, nd) hmemnd hfl f hfmem
    have hrem : fpRemove s i =
        FPState.mk
          (Fingerprints.mk (eraseEntry s.idx.mFingerprints i)
            (s.idx.mSumSizes - f.size))
          (setNode s.nodes i (fun m => FNodeRec.mk m.ntype m.fp false)) := by
      unfold fpRemove
      rw [hnd]
      simp [hfl, hf2]
    rw [hrem]
    refine ⟨?_, ?_, ?_, ?_, ?_, ?_, ?_, ?_, ?_⟩
    · intro x
      rw [lookupN_setNode]
      by_cases hx : x = i
      · rw [if_pos hx, if_pos hx, hx, hnd]
        rfl
      · rw [if_neg hx, if_neg hx]
    · rw [setNode_map_fst]
      exact hN
    · exact hE.sublist ((eraseEntry_sublist s.idx.mFingerprints i).map Prod.fst)
    · rw [sumSizes_eraseEntry s.idx.mFingerprints hE i f hentry, hS]
    · intro g hg
      exact ((mem_eraseEntry_of_nodup s.idx.mFingerprints hE i g).mp hg).2
    · intro g hg
      exact ((mem_eraseEntry_of_nodup s.idx.mFingerprints hE i g).mp hg).1
    · intro g hg hne
      exact (mem_eraseEntry_of_nodup s.idx.mFingerprints hE i g).mpr ⟨hg, hne⟩
    · intro e he hne
      obtain ⟨e0, he0, heq⟩ := (mem_setNode s.nodes i _ e).mp he
      by_cases h0 : e0.1 = i
      · rw [if_pos h0] at heq
        exact absurd (by rw [heq]; exact h0) hne
      · rw [if_neg h0] at heq
        rw [heq]
        exact he0
    · intro e he hne
      exact (mem_setNode s.nodes i _ e).mpr ⟨e, he, by rw [if_neg hne]⟩
  · have hfl' : nd.fingerprint_it = false := Bool.eq_false_iff.mpr hfl
    have hrem : fpRemove s i = s := by
      unfold fpRemove
      rw [hnd]
      simp [hfl']
    rw [hrem]
    have hndEta : nd = FNodeRec.mk nd.ntype nd.fp false := by
      cases nd
      simp_all
    refine ⟨?_, hN, hE, hS, ?_, fun g hg => hg, fun g hg _ => hg,
      fun e he _ => he, fun e he _ => he⟩
    · intro x
      by_cases hx : x = i
      · rw [if_pos hx, hx, hnd, ← hndEta]
      · rw [if_neg hx]
    · intro g hg hgi
      obtain ⟨e, he, h3⟩ := hOwn g hg
      have heq : e = (i, nd) :=
        entry_eq_of_nodup s.nodes hN e (i, nd) he hmemnd (by rw [h3.1, hgi])
      rw [heq] at h3
      exact hfl h3.2.1

theorem lookupN_eq_none_forall {α : Type} (t : List (Handle × α)) (h : Handle)
    (hl : lookupN t h = none) : ∀ e ∈ t, e.1 ≠ h := by
  induction t with
  | nil =>
      intro e he
      cases he
  | cons x t ih =>
      intro e he
      by_cases hx : x.1 = h
      · rw [lookupN, if_pos hx] at hl
        cases hl
      · rw [lookupN, if_neg hx] at hl
        rcases List.mem_cons.mp he with rfl | hmem
        · exact hx
        · exact ih hl e hmem

theorem fpAdd_eq (s : FPState) (i : Handle) (m : FNodeRec)
    (hl : lookupN s.nodes i = some m) :
    fpAdd s i =
      (if m.ntype = NType.filenode ∧ m.fingerprint_it = false then
        match m.fp with
        | none => s
        | some f =>
            FPState.mk
              (Fingerprints.mk (insertFP (i, f) s.idx.mFingerprints)
                (s.idx.mSumSizes + f.size))
              (setNode s.nodes i (fun m2 => FNodeRec.mk m2.ntype m2.fp true))
      else s) := by
  unfold fpAdd
  rw [hl]

theorem setfingerprint_FPInv (s : FPState) (i : Handle)
    (newfp : Option FileFingerprint) (hinv : FPInv s) :
    FPInv (setfingerprint s i newfp) := by
  cases hnd : lookupN s.nodes i with
  | none =>
      unfold setfingerprint
      rw [hnd]
      exact hinv
  | some nd =>
      obtain ⟨hN, hE, hS, hMem, hFlag, hOwn⟩ := hinv
      obtain ⟨fLk, fNd, fEd, fSum, fNe, fSub, fKeep, fNSub, fNKeep⟩ :=
        fpRemove_facts s i nd ⟨hN, hE, hS, hMem, hFlag, hOwn⟩ hnd
      have hsf : setfingerprint s i newfp =
          fpAdd (FPState.mk (fpRemove s i).idx
            (setNode (fpRemove s i).nodes i
              (fun m => FNodeRec.mk m.ntype newfp false))) i := by
        unfold setfingerprint
        rw [hnd]
      have hLk2 : ∀ x, lookupN (setNode (fpRemove s i).nodes i
          (fun m => FNodeRec.mk m.ntype newfp false)) x =
          if x = i then some (FNodeRec.mk nd.ntype newfp false)
          else lookupN s.nodes x := by
        intro x
        rw [lookupN_setNode]
        by_cases hx : x = i
        · rw [if_pos hx, if_pos hx, fLk x, if_pos hx]
          rfl
        · rw [if_neg hx, if_neg hx, fLk x, if_neg hx]
      have hNd2 : ((setNode (fpRemove s i).nodes i
          (fun m => FNodeRec.mk m.ntype newfp false)).map Prod.fst).Nodup := by
        rw [setNode_map_fst]
        exact fNd
      have hMem2 : ∀ e, e ∈ setNode (fpRemove s i).nodes i
          (fun m => FNodeRec.mk m.ntype newfp false) →
          (e.1 ≠ i ∧ e ∈ s.nodes) ∨ e = (i, FNodeRec.mk nd.ntype newfp false) := by
        intro e he
        obtain ⟨e0, he0, heq⟩ := (mem_setNode _ i _ e).mp he
        by_cases h0 : e0.1 = i
        · right
          rw [if_pos h0] at heq
          have hl0 : lookupN (fpRemove s i).nodes e0.1 = some e0.2 :=
            lookupN_of_mem_nodup (fpRemove s i).nodes fNd e0 he0
          rw [fLk e0.1, if_pos h0] at hl0
          have h2 : e0.2 = FNodeRec.mk nd.ntype nd.fp false := by
            injection hl0 with h2x
            exact h2x.symm
          rw [heq, h0, h2]
        · left
          rw [if_neg h0] at heq
          rw [heq]
          exact ⟨h0, fNSub e0 he0 h0⟩
      have hMem2r : ∀ e ∈ s.nodes, e.1 ≠ i →
          e ∈ setNode (fpRemove s i).nodes i
            (fun m => FNodeRec.mk m.ntype newfp false) := by
        intro e he hne
        exact (mem_setNode _ i _ e).mpr ⟨e, fNKeep e he hne, by rw [if_neg hne]⟩
      have hLk2i : lookupN (FPState.mk (fpRemove s i).idx
          (setNode (fpRemove s i).nodes i
            (fun m => FNodeRec.mk m.ntype newfp false))).nodes i =
          some (FNodeRec.mk nd.ntype newfp false) := by
        rw [show (FPState.mk (fpRemove s i).idx
          (setNode (fpRemove s i).nodes i
            (fun m => FNodeRec.mk m.ntype newfp false))).nodes =
          setNode (fpRemove s i).nodes i
            (fun m => FNodeRec.mk m.ntype newfp false) from rfl]
        rw [hLk2 i, if_pos rfl]
      have hInvS2 : ¬(nd.ntype = NType.filenode ∧ newfp.isSome = true) →
          FPInv (FPState.mk (fpRemove s i).idx
            (setNode (fpRemove s i).nodes i
              (fun m => FNodeRec.mk m.ntype newfp false))) := by
        intro hng
        refine ⟨hNd2, fEd, fSum, ?_, ?_, ?_⟩
        · intro e he
          rcases hMem2 e he with ⟨_, hes⟩ | heq
          · exact hMem e hes
          · rw [heq]
            exact iff_of_false (by simp) hng
        · intro e he hflag f hf
          rcases hMem2 e he with ⟨hne, hes⟩ | heq
          · exact fKeep (e.1, f) (hFlag e hes hflag f hf) hne
          · rw [heq] at hflag
            simp at hflag
        · intro g hg
          have hgne := fNe g hg
          obtain ⟨e0, he0, h3⟩ := hOwn g (fSub g hg)
          exact ⟨e0, hMem2r e0 he0 (by rw [h3.1]; exact hgne), h3⟩
      rw [hsf]
      by_cases hft : nd.ntype = NType.filenode
      · cases hnf : newfp with
        | none =>
            subst hnf
            have hres : fpAdd (FPState.mk (fpRemove s i).idx
                (setNode (fpRemove s i).nodes i
                  (fun m => FNodeRec.mk m.ntype none false))) i =
                FPState.mk (fpRemove s i).idx
                  (setNode (fpRemove s i).nodes i
                    (fun m => FNodeRec.mk m.ntype none false)) := by
              rw [fpAdd_eq _ i _ hLk2i, if_pos ⟨hft, rfl⟩]
            rw [hres]
            exact hInvS2 (by simp)
        | some f2 =>
            subst hnf
            have hres : fpAdd (FPState.mk (fpRemove s i).idx
                (setNode (fpRemove s i).nodes i
                  (fun m => FNodeRec.mk m.ntype (some f2) false))) i =
                FPState.mk
                  (Fingerprints.mk
                    (insertFP (i, f2) (fpRemove s i).idx.mFingerprints)
                    ((fpRemove s i).idx.mSumSizes + f2.size))
                  (setNode (setNode (fpRemove s i).nodes i
                      (fun m => FNodeRec.mk m.ntype (some f2) false)) i
                    (fun m => FNodeRec.mk m.ntype m.fp true)) := by
              rw [fpAdd_eq _ i _ hLk2i, if_pos ⟨hft, rfl⟩]
            rw [hres]
            have hLk3 : ∀ x, lookupN (setNode (setNode (fpRemove s i).nodes i
                (fun m => FNodeRec.mk m.ntype (some f2) false)) i
                (fun m => FNodeRec.mk m.ntype m.fp true)) x =
                if x = i then some (FNodeRec.mk nd.ntype (some f2) true)
                else lookupN s.nodes x := by
              intro x
              rw [lookupN_setNode]
              by_cases hx : x = i
              · rw [if_pos hx, if_pos hx, hLk2 x, if_pos hx]
                rfl
              · rw [if_neg hx, if_neg hx, hLk2 x, if_neg hx]
            have hndmem3 : (i, FNodeRec.mk nd.ntype (some f2) true) ∈
                setNode (setNode (fpRemove s i).nodes i
                  (fun m => FNodeRec.mk m.ntype (some f2) false)) i
                  (fun m => FNodeRec.mk m.ntype m.fp true) :=
              lookupN_eq_some_mem _ i _ (by rw [hLk3 i, if_pos rfl])
            have hNd3 : ((setNode (setNode (fpRemove s i).nodes i
                (fun m => FNodeRec.mk m.ntype (some f2) false)) i
                (fun m => FNodeRec.mk m.ntype m.fp true)).map Prod.fst).Nodup := by
              rw [setNode_map_fst]
              exact hNd2
            have hMem3 : ∀ e, e ∈ setNode (setNode (fpRemove s i).nodes i
                (fun m => FNodeRec.mk m.ntype (some f2) false)) i
                (fun m => FNodeRec.mk m.ntype m.fp true) →
                (e.1 ≠ i ∧ e ∈ s.nodes) ∨
                  e = (i, FNodeRec.mk nd.ntype (some f2) true) := by
              intro e he
              obtain ⟨e0, he0, heq⟩ := (mem_setNode _ i _ e).mp he
              by_cases h0 : e0.1 = i
              · right
                rw [if_pos h0] at heq
                have hl0 : lookupN (setNode (fpRemove s i).nodes i
                    (fun m => FNodeRec.mk m.ntype (some f2) false)) e0.1 =
                    some e0.2 :=
                  lookupN_of_mem_nodup _ hNd2 e0 he0
                rw [hLk2 e0.1, if_pos h0] at hl0
                have h2 : e0.2 = FNodeRec.mk nd.ntype (some f2) false := by
                  injection hl0 with h2x
                  exact h2x.symm
                rw [heq, h0, h2]
              · left
                rw [if_neg h0] at heq
                rw [heq]
                rcases hMem2 e0 he0 with ⟨_, hes⟩ | heq2
                · exact ⟨h0, hes⟩
                · exact absurd (by rw [heq2]) h0
            have hMem3r : ∀ e ∈ s.nodes, e.1 ≠ i →
                e ∈ setNode (setNode (fpRemove s i).nodes i
                  (fun m => FNodeRec.mk m.ntype (some f2) false)) i
                  (fun m => FNodeRec.mk m.ntype m.fp true) := by
              intro e he hne
              exact (mem_setNode _ i _ e).mpr
                ⟨e, hMem2r e he hne, by rw [if_neg hne]⟩
            have hNi : i ∉ ((fpRemove s i).idx.mFingerprints.map Prod.fst) := by
              intro hmem
              obtain ⟨g, hg, hg1⟩ := List.mem_map.mp hmem
              exact fNe g hg hg1
            refine ⟨hNd3, ?_, ?_, ?_, ?_, ?_⟩
            · exact nodup_map_fst_insertFP (i, f2) _ hNi fEd
            · show (fpRemove s i).idx.mSumSizes + f2.size =
                sumSizes (insertFP (i, f2) (fpRemove s i).idx.mFingerprints)
              rw [sumSizes_insertFP, fSum]
              exact add_comm _ _
            · intro e he
              rcases hMem3 e he with ⟨_, hes⟩ | heq
              · exact hMem e hes
              · rw [heq]
                exact iff_of_true rfl ⟨hft, rfl⟩
            · intro e he hflag f hf
              rcases hMem3 e he with ⟨hne, hes⟩ | heq
              · exact (mem_insertFP (i, f2) (e.1, f) _).mpr
                  (Or.inr (fKeep (e.1, f) (hFlag e hes hflag f hf) hne))
              · rw [heq] at hf
                have hff : f = f2 := by
                  rw [Option.mem_def] at hf
                  injection hf with hfx
                  exact hfx.symm
                rw [heq]
                exact (mem_insertFP (i, f2) _ _).mpr (Or.inl (by rw [hff]))
            · intro g hg
              rcases (mem_insertFP (i, f2) g _).mp hg with hgeq | hgold
              · refine ⟨(i, FNodeRec.mk nd.ntype (some f2) true), hndmem3, ?_⟩
                rw [hgeq]
                exact ⟨rfl, rfl, rfl⟩
              · have hgne := fNe g hgold
                obtain ⟨e0, he0, h3⟩ := hOwn g (fSub g hgold)
                exact ⟨e0, hMem3r e0 he0 (by rw [h3.1]; exact hgne), h3⟩
      · have hres : fpAdd (FPState.mk (fpRemove s i).idx
            (setNode (fpRemove s i).nodes i
              (fun m => FNodeRec.mk m.ntype newfp false))) i =
            FPState.mk (fpRemove s i).idx
              (setNode (fpRemove s i).nodes i
                (fun m => FNodeRec.mk m.ntype newfp false)) := by
          rw [fpAdd_eq _ i _ hLk2i, if_neg (fun hx => hft hx.1)]
        rw [hres]
        exact hInvS2 (fun hx => hft hx.1)

theorem removeNode_FPInv (s : FPState) (j : Handle) (hinv : FPInv s) :
    FPInv (removeNode s j) := by
  cases hnd : lookupN s.nodes j with
  | none =>
      have hall : ∀ e ∈ s.nodes, e.1 ≠ j := lookupN_eq_none_forall s.nodes j hnd
      have hrem : fpRemove s j = s := by
        unfold fpRemove
        rw [hnd]
      unfold removeNode
      rw [hrem]
      have hfid : s.nodes.filter (fun e => decide (e.1 ≠ j)) = s.nodes :=
        List.filter_eq_self.mpr (fun e he => by simp [hall e he])
      show FPInv (FPState.mk s.idx (s.nodes.filter (fun e => decide (e.1 ≠ j))))
      rw [hfid]
      exact hinv
  | some nd =>
      obtain ⟨hN, hE, hS, hMem, hFlag, hOwn⟩ := hinv
      obtain ⟨fLk, fNd, fEd, fSum, fNe, fSub, fKeep, fNSub, fNKeep⟩ :=
        fpRemove_facts s j nd ⟨hN, hE, hS, hMem, hFlag, hOwn⟩ hnd
      unfold removeNode
      show FPInv (FPState.mk (fpRemove s j).idx
        ((fpRemove s j).nodes.filter (fun e => decide (e.1 ≠ j))))
      refine ⟨?_, fEd, fSum, ?_, ?_, ?_⟩
      · exact fNd.sublist ((List.filter_sublist _).map Prod.fst)
      · intro e he
        obtain ⟨he1, he2⟩ := List.mem_filter.mp he
        have hne : e.1 ≠ j := by simpa using he2
        exact hMem e (fNSub e he1 hne)
      · intro e he hflag f hf
        obtain ⟨he1, he2⟩ := List.mem_filter.mp he
        have hne : e.1 ≠ j := by simpa using he2
        exact fKeep (e.1, f) (hFlag e (fNSub e he1 hne) hflag f hf) hne
      · intro g hg
        have hgne := fNe g hg
        obtain ⟨e0, he0, h3⟩ := hOwn g (fSub g hg)
        have h0ne : e0.1 ≠ j := by rw [h3.1]; exact hgne
        exact ⟨e0, List.mem_filter.mpr ⟨fNKeep e0 he0 h0ne, by simpa using h0ne⟩, h3⟩

/-- Claim C3: the fingerprint-index invariant — a file node is a member of
the index iff it currently has a resolved fingerprint, and the running size
sum equals the sum of the sizes of all indexed nodes — holds after every
fingerprint update (insertion, change or clearing) and node removal. -/
theorem fingerprint_index_inv (s : FPState) (i j : Handle)
    (newfp : Option FileFingerprint) (hinv : FPInv s) :
    FPInv (setfingerprint s i newfp) ∧ FPInv (removeNode s j) :=
  ⟨setfingerprint_FPInv s i newfp hinv, removeNode_FPInv s j hinv⟩

/-- Witness for C3, spec Scenario A: after file nodes F1 (handle 1) and F2
(handle 2), both of size 100 with hash H, are indexed, the sum is 200 and
the lookup returns both; removing F1 leaves the invariant intact, the sum
is 100, and the lookup still returns F2. -/
theorem fingerprint_index_inv_witness :
    FPInv scenA0 ∧ FPInv scenA2 ∧ FPInv (removeNode scenA2 1) ∧
    Fingerprints.getSumSizes scenA2.idx = 200 ∧
    Fingerprints.nodesbyfingerprint scenA2.idx fpH = [1, 2] ∧
    Fingerprints.getSumSizes (removeNode scenA2 1).idx = 100 ∧
    Fingerprints.nodebyfingerprint (removeNode scenA2 1).idx fpH = some 2 ∧
    Fingerprints.nodesbyfingerprint (removeNode scenA2 1).idx fpH = [2] :=
  ⟨by decide, by decide,
   (fingerprint_index_inv scenA2 1 1 (some fpH) (by decide)).2,
   rfl, rfl, rfl, rfl, rfl⟩

/-- Claim C7: `Fingerprints::remove(n)` erases exactly the entry at the
iterator position recorded on `n` and decrements the running size sum by
`n`'s size; if `n` holds no recorded position it is a no-op that leaves the
index and the size sum unchanged (and, being a total function, raises no
error). -/
theorem fingerprints_remove_spec (s : FPState) (i : Handle) (nd : FNodeRec)
    (hinv : FPInv s) (hnd : lookupN s.nodes i = some nd) :
    (nd.fingerprint_it = false → fpRemove s i = s) ∧
    (nd.fingerprint_it = true →
      ∃ f, nd.fp = some f ∧ (i, f) ∈ s.idx.mFingerprints ∧
        (fpRemove s i).idx.mFingerprints = eraseEntry s.idx.mFingerprints i ∧
        (fpRemove s i).idx.mSumSizes = s.idx.mSumSizes - f.size ∧
        (fpRemove s i).idx.mSumSizes = sumSizes (fpRemove s i).idx.mFingerprints) := by
  obtain ⟨hN, hE, hS, hMem, hFlag, hOwn⟩ := hinv
  have hmemnd : (i, nd) ∈ s.nodes := lookupN_eq_some_mem s.nodes i nd hnd
  constructor
  · intro hfl
    unfold fpRemove
    rw [hnd]
    simp [hfl]
  · intro hfl
    obtain ⟨hfile, hsome⟩ := (hMem (i, nd) hmemnd).mp hfl
    obtain ⟨f, hf⟩ := Option.isSome_iff_exists.mp hsome
    have hf2 : nd.fp = some f := hf
    have hfmem : f ∈ nd.fp := by rw [Option.mem_def, hf2]
    have hentry : (i, f) ∈ s.idx.mFingerprints := hFlag (i, nd) hmemnd hfl f hfmem
    have hrem : fpRemove s i =
        FPState.mk
          (Fingerprints.mk (eraseEntry s.idx.mFingerprints i)
            (s.idx.mSumSizes - f.size))
          (setNode s.nodes i (fun m => FNodeRec.mk m.ntype m.fp false)) := by
      unfold fpRemove
      rw [hnd]
      simp [hfl, hf2]
    refine ⟨f, hf2, hentry, ?_, ?_, ?_⟩
    · rw [hrem]
    · rw [hrem]
    · rw [hrem]
      show s.idx.mSumSizes - f.size = sumSizes (eraseEntry s.idx.mFingerprints i)
      rw [sumSizes_eraseEntry s.idx.mFingerprints hE i f hentry, hS]

/-- Witness for C7: removing unindexed F1 from the Scenario A start state is
a no-op; removing indexed F1 from the fully indexed Scenario A state erases
exactly its recorded entry and decrements the sum by its size. -/
theorem fingerprints_remove_spec_witness :
    fpRemove scenA0 1 = scenA0 ∧
    (∃ f, (FNodeRec.mk NType.filenode (some fpH) true).fp = some f ∧
      (1, f) ∈ scenA2.idx.mFingerprints ∧
      (fpRemove scenA2 1).idx.mFingerprints = eraseEntry scenA2.idx.mFingerprints 1 ∧
      (fpRemove scenA2 1).idx.mSumSizes = scenA2.idx.mSumSizes - f.size ∧
      (fpRemove scenA2 1).idx.mSumSizes = sumSizes (fpRemove scenA2 1).idx.mFingerprints) :=
  ⟨(fingerprints_remove_spec scenA0 1 (FNodeRec.mk NType.filenode none false)
      (by decide) rfl).1 rfl,
   (fingerprints_remove_spec scenA2 1 (FNodeRec.mk NType.filenode (some fpH) true)
      (by decide) rfl).2 rfl⟩

/-! ## Key-resolution lemmas and claims -/

theorem tryAncestors_fail (d : Nat → List Nat → Option (List Nat)) (ck : List Nat) :
    ∀ anc, ancFails d anc ck → (tryAncestors d anc ck).1 = none := by
  intro anc
  induction anc with
  | nil => intro _; rfl
  | cons a rest ih =>
      intro hfail
      cases a with
      | none =>
          rw [tryAncestors]
          exact ih (fun b hb k hk => hfail b (List.mem_cons_of_mem _ hb) k hk)
      | some k =>
          have hk : d k ck = none :=
            hfail (some k) (List.mem_cons_self _ _) k (by rw [Option.mem_def])
          rw [tryAncestors, hk]
          exact ih (fun b hb k2 hk2 => hfail b (List.mem_cons_of_mem _ hb) k2 hk2)

theorem tryAncestors_first (d : Nat → List Nat → Option (List Nat)) (ck : List Nat)
    (k : Nat) (a2 : List (Option Nat)) (pt : List Nat) (hk : d k ck = some pt) :
    ∀ a1, ancFails d a1 ck →
      (tryAncestors d (a1 ++ some k :: a2) ck).1 = some pt := by
  intro a1
  induction a1 with
  | nil =>
      intro _
      rw [List.nil_append, tryAncestors, hk]
  | cons a rest ih =>
      intro hfail
      cases a with
      | none =>
          rw [List.cons_append, tryAncestors]
          exact ih (fun b hb k2 hk2 => hfail b (List.mem_cons_of_mem _ hb) k2 hk2)
      | some k2 =>
          have hk2 : d k2 ck = none :=
            hfail (some k2) (List.mem_cons_self _ _) k2 (by rw [Option.mem_def])
          rw [List.cons_append, tryAncestors, hk2]
          exact ih (fun b hb k3 hk3 => hfail b (List.mem_cons_of_mem _ hb) k3 hk3)

/-- Claim C5: behaviour of resolveKey on an unresolved node — a cooked key
on a non-foreign node is decoded directly against the master key (success
resolves the key and decodes the attributes, failure marks the node
`foreignkey` with attributes unchanged and undecoded); otherwise the
ancestors' share keys are tried walking upward and the first ancestor whose
share key decodes the key wins; if no ancestor key succeeds, `foreignkey` is
set and the attributes remain undecoded — a normal state, not an error. -/
theorem applykey_spec (d : Nat → List Nat → Option (List Nat)) (mkey : Nat)
    (n : KeyNode) (anc : List (Option Nat)) (hun : n.resolvedKey = none) :
    ((cookedKey n.nodekey && !n.foreignkey) = true →
      (∀ pt, d mkey n.nodekey = some pt →
        applykey d mkey n anc = (KeyNode.mk n.nodekey n.foreignkey (some pt) true, 1)) ∧
      (d mkey n.nodekey = none →
        applykey d mkey n anc = (KeyNode.mk n.nodekey true none n.attrsDecoded, 1))) ∧
    ((cookedKey n.nodekey && !n.foreignkey) = false →
      (∀ a1 k a2 pt, anc = a1 ++ some k :: a2 → ancFails d a1 n.nodekey →
        d k n.nodekey = some pt →
        ((applykey d mkey n anc).1.resolvedKey = some pt ∧
         (applykey d mkey n anc).1.attrsDecoded = true)) ∧
      (ancFails d anc n.nodekey →
        (applykey d mkey n anc).1.foreignkey = true ∧
        (applykey d mkey n anc).1.attrsDecoded = n.attrsDecoded ∧
        (applykey d mkey n anc).1.resolvedKey = none)) := by
  have hns : n.resolvedKey.isSome = false := by rw [hun]; rfl
  constructor
  · intro hcond
    have happ : applykey d mkey n anc =
        (match d mkey n.nodekey with
         | some pt => (KeyNode.mk n.nodekey n.foreignkey (some pt) true, 1)
         | none => (KeyNode.mk n.nodekey true n.resolvedKey n.attrsDecoded, 1)) := by
      unfold applykey
      simp [hns, hcond]
    constructor
    · intro pt hpt
      rw [happ, hpt]
    · intro hpt
      rw [happ, hpt, hun]
  · intro hcond
    have happ : applykey d mkey n anc =
        (match tryAncestors d anc n.nodekey with
         | (some pt, c) => (KeyNode.mk n.nodekey n.foreignkey (some pt) true, c)
         | (none, c) => (KeyNode.mk n.nodekey true n.resolvedKey n.attrsDecoded, c)) := by
      unfold applykey
      simp [hns, hcond]
    constructor
    · intro a1 k a2 pt hanc hfail hk
      have h1 : (tryAncestors d anc n.nodekey).1 = some pt := by
        rw [hanc]
        exact tryAncestors_first d n.nodekey k a2 pt hk a1 hfail
      cases hp : tryAncestors d anc n.nodekey with
      | mk r1 r2 =>
          rw [hp] at h1
          have hr1 : r1 = some pt := h1
          subst hr1
          rw [happ, hp]
          exact ⟨rfl, rfl⟩
    · intro hfail
      have h1 : (tryAncestors d anc n.nodekey).1 = none :=
        tryAncestors_fail d n.nodekey anc hfail
      cases hp : tryAncestors d anc n.nodekey with
      | mk r1 r2 =>
          rw [hp] at h1
          have hr1 : r1 = none := h1
          subst hr1
          rw [happ, hp]
          exact ⟨rfl, rfl, hun⟩

/-- Witness for C5, spec Scenario C and the ancestor walk: a cooked key with
a correct master-key decode resolves; the same key with one byte flipped
fails to decode, sets `foreignkey` and leaves the attributes undecoded; a
raw key is resolved by the first ancestor share key that decodes it, and
with no decoding ancestor the node is marked `foreignkey`. -/
theorem applykey_spec_witness :
    applykey scDecrypt 9 (KeyNode.mk goodKey false none false) [] =
      (KeyNode.mk goodKey false (some (List.replicate 32 7)) true, 1) ∧
    applykey scDecrypt 9 (KeyNode.mk badKey false none false) [] =
      (KeyNode.mk badKey true none false, 1) ∧
    ((applykey anDecrypt 0 (KeyNode.mk rawKey false none false)
        [none, some 5, some 9]).1.resolvedKey = some [1] ∧
     (applykey anDecrypt 0 (KeyNode.mk rawKey false none false)
        [none, some 5, some 9]).1.attrsDecoded = true) ∧
    ((applykey anDecrypt 0 (KeyNode.mk rawKey false none false)
        [none, some 5]).1.foreignkey = true ∧
     (applykey anDecrypt 0 (KeyNode.mk rawKey false none false)
        [none, some 5]).1.attrsDecoded = false ∧
     (applykey anDecrypt 0 (KeyNode.mk rawKey false none false)
        [none, some 5]).1.resolvedKey = none) :=
  ⟨((applykey_spec scDecrypt 9 (KeyNode.mk goodKey false none false) [] rfl).1
      (by decide)).1 (List.replicate 32 7) (by decide),
   ((applykey_spec scDecrypt 9 (KeyNode.mk badKey false none false) [] rfl).1
      (by decide)).2 (by decide),
   ((applykey_spec anDecrypt 0 (KeyNode.mk rawKey false none false)
      [none, some 5, some 9] rfl).2 (by decide)).1
      [none, some 5] 9 [] [1] rfl (by decide) (by decide),
   ((applykey_spec anDecrypt 0 (KeyNode.mk rawKey false none false)
      [none, some 5] rfl).2 (by decide)).2 (by decide)⟩

theorem applykey_of_resolved (d : Nat → List Nat → Option (List Nat))
    (mkey : Nat) (m : KeyNode) (anc : List (Option Nat))
    (h : m.resolvedKey.isSome = true) :
    applykey d mkey m anc = (m, 0) := by
  unfold applykey
  rw [if_pos h]

/-- Claim C8: resolveKey is idempotent — once a call has resolved the node's
key, a second call (against any ancestor chain) returns the very same node
state, hence the same key bytes, and performs zero cipher invocations. -/
theorem applykey_idempotent (d : Nat → List Nat → Option (List Nat))
    (mkey : Nat) (n : KeyNode) (anc anc2 : List (Option Nat))
    (hres : ((applykey d mkey n anc).1.resolvedKey).isSome = true) :
    applykey d mkey (applykey d mkey n anc).1 anc2 =
      ((applykey d mkey n anc).1, 0) :=
  applykey_of_resolved d mkey _ anc2 hres

/-- Witness for C8: after the Scenario C node resolves, a second resolveKey
call returns the identical node state with zero cipher invocations. -/
theorem applykey_idempotent_witness :
    ((applykey scDecrypt 9 (KeyNode.mk goodKey false none false)
       []).1.resolvedKey).isSome = true ∧
    applykey scDecrypt 9
        (applykey scDecrypt 9 (KeyNode.mk goodKey false none false) []).1 [] =
      ((applykey scDecrypt 9 (KeyNode.mk goodKey false none false) []).1, 0) :=
  ⟨by decide,
   applykey_idempotent scDecrypt 9 (KeyNode.mk goodKey false none false) [] []
     (by decide)⟩

/-! ## Serialization lemmas and claims -/

theorem resolveRecord_eq (rs : List NodeRecord) (t0 : STree) (h : Handle)
    (sn : SNode) (r : NodeRecord) (hfr : findRecord rs h = some r) :
    resolveRecord rs t0 h sn =
      (match r.parenthandle with
       | none => sn
       | some ph =>
          if hasHandle t0 ph then
            SNode.mk (some ph) sn.ntype sn.size sn.keydata sn.attrdata
          else sn) := by
  unfold resolveRecord
  rw [hfr]

theorem findRecord_serializeTree (t : STree) (hnd : (t.map Prod.fst).Nodup)
    (e : Handle × SNode) (he : e ∈ t) :
    findRecord (serializeTree t) e.1 = some (serializeNode e) := by
  induction t with
  | nil => cases he
  | cons x xs ih =>
      rw [List.map_cons, List.nodup_cons] at hnd
      rcases List.mem_cons.mp he with rfl | hmem
      · unfold findRecord serializeTree
        rw [List.map_cons]
        exact List.find?_cons_of_pos _ (by simp [serializeNode])
      · have hx : ¬(x.1 = e.1) := fun h =>
          hnd.1 (h ▸ List.mem_map_of_mem Prod.fst hmem)
        unfold findRecord serializeTree
        rw [List.map_cons, List.find?_cons_of_neg _ (by simp [serializeNode, hx])]
        exact ih hnd.2 hmem

theorem findRecord_of_mem_nodup (rs : List NodeRecord)
    (hnd : (rs.map NodeRecord.handle).Nodup) (r : NodeRecord) (hr : r ∈ rs) :
    findRecord rs r.handle = some r := by
  induction rs with
  | nil => cases hr
  | cons x xs ih =>
      rw [List.map_cons, List.nodup_cons] at hnd
      rcases List.mem_cons.mp hr with rfl | hmem
      · unfold findRecord
        exact List.find?_cons_of_pos _ (by simp)
      · have hx : ¬(x.handle = r.handle) := fun h =>
          hnd.1 (h ▸ List.mem_map_of_mem NodeRecord.handle hmem)
        unfold findRecord
        rw [List.find?_cons_of_neg _ (by simp [hx])]
        exact ih hnd.2 hmem

theorem lookupN_mapval {α β : Type} (t : List (Handle × α))
    (f : Handle → α → β) (h : Handle) :
    lookupN (t.map (fun e => (e.1, f e.1 e.2))) h = (lookupN t h).map (f h) := by
  induction t with
  | nil => rfl
  | cons e t ih =>
      by_cases he : e.1 = h
      · simp [lookupN, he]
      · simp [lookupN, he, ih]

theorem lookupN_pass1 (rs : List NodeRecord) (h : Handle) :
    lookupN (pass1 rs) h =
      (findRecord rs h).map
        (fun r => SNode.mk none r.ntype r.size r.keydata r.attrdata) := by
  induction rs with
  | nil => rfl
  | cons r rs ih =>
      by_cases hr : r.handle = h
      · rw [show lookupN (pass1 (r :: rs)) h =
            some (SNode.mk none r.ntype r.size r.keydata r.attrdata) from by
          show (if r.handle = h
            then some (SNode.mk none r.ntype r.size r.keydata r.attrdata)
            else lookupN (pass1 rs) h) = _
          rw [if_pos hr]]
        rw [show findRecord (r :: rs) h = some r from
          List.find?_cons_of_pos _ (by simp [hr])]
        rfl
      · rw [show lookupN (pass1 (r :: rs)) h = lookupN (pass1 rs) h from by
          show (if r.handle = h
            then some (SNode.mk none r.ntype r.size r.keydata r.attrdata)
            else lookupN (pass1 rs) h) = _
          rw [if_neg hr]]
        rw [show findRecord (r :: rs) h = findRecord rs h from
          List.find?_cons_of_neg _ (by simp [hr])]
        exact ih

theorem hasHandle_pass1 (rs : List NodeRecord) (h : Handle) :
    hasHandle (pass1 rs) h = recHasHandle rs h := by
  induction rs with
  | nil => rfl
  | cons r rs ih =>
      show (decide (r.handle = h) || hasHandle (pass1 rs) h) =
        (decide (r.handle = h) || recHasHandle rs h)
      rw [ih]

theorem hasHandle_map_strip (t : STree) (h : Handle) :
    hasHandle (t.map (fun e =>
      (e.1, SNode.mk none e.2.ntype e.2.size e.2.keydata e.2.attrdata))) h =
      hasHandle t h := by
  induction t with
  | nil => rfl
  | cons e t ih =>
      show (decide (e.1 = h) ||
          hasHandle (t.map (fun e2 =>
            (e2.1, SNode.mk none e2.2.ntype e2.2.size e2.2.keydata e2.2.attrdata))) h) =
        (decide (e.1 = h) || hasHandle t h)
      rw [ih]

theorem pass1_serializeTree (t : STree) :
    pass1 (serializeTree t) =
      t.map (fun e =>
        (e.1, SNode.mk none e.2.ntype e.2.size e.2.keydata e.2.attrdata)) := by
  induction t with
  | nil => rfl
  | cons e t ih => simp [pass1, serializeTree, serializeNode, ih]

/-- Claim C4: deserializing a serialized tree reproduces the tree exactly —
same handles, same parent/child structure, same key and attribute payloads
(hence the same resolved attributes where resolvable) — for every tree with
uniquely keyed nodes whose parent links all resolve; in particular for any
tree with at most two levels of share-key dependency. -/
theorem unserialize_serialize_id (t : STree)
    (hnd : (t.map Prod.fst).Nodup)
    (hpv : ∀ e ∈ t, ∀ ph ∈ e.2.parent, hasHandle t ph = true) :
    unserializeTree (serializeTree t) = t := by
  unfold unserializeTree pass2
  rw [pass1_serializeTree, List.map_map]
  have hpt : ∀ e ∈ t,
      ((fun e2 : Handle × SNode =>
          (e2.1, resolveRecord (serializeTree t)
            (t.map (fun e3 =>
              (e3.1, SNode.mk none e3.2.ntype e3.2.size e3.2.keydata e3.2.attrdata)))
            e2.1 e2.2)) ∘
        (fun e3 : Handle × SNode =>
          (e3.1, SNode.mk none e3.2.ntype e3.2.size e3.2.keydata e3.2.attrdata))) e =
        id e := by
    intro e he
    show (e.1, resolveRecord (serializeTree t)
      (t.map (fun e3 =>
        (e3.1, SNode.mk none e3.2.ntype e3.2.size e3.2.keydata e3.2.attrdata)))
      e.1 (SNode.mk none e.2.ntype e.2.size e.2.keydata e.2.attrdata)) = e
    unfold resolveRecord
    rw [findRecord_serializeTree t hnd e he]
    simp only [serializeNode]
    cases hpp : e.2.parent with
    | none =>
        show (e.1, SNode.mk none e.2.ntype e.2.size e.2.keydata e.2.attrdata) = e
        cases e with
        | mk h1 sn =>
            cases sn
            simp_all
    | some ph =>
        show (e.1,
          if hasHandle (t.map (fun e3 =>
              (e3.1, SNode.mk none e3.2.ntype e3.2.size e3.2.keydata e3.2.attrdata))) ph = true
          then SNode.mk (some ph) e.2.ntype e.2.size e.2.keydata e.2.attrdata
          else SNode.mk none e.2.ntype e.2.size e.2.keydata e.2.attrdata) = e
        have hcond : hasHandle (t.map (fun e3 =>
            (e3.1, SNode.mk none e3.2.ntype e3.2.size e3.2.keydata e3.2.attrdata))) ph = true := by
          rw [hasHandle_map_strip]
          exact hpv e he ph (by rw [Option.mem_def, hpp])
        rw [if_pos hcond]
        cases e with
        | mk h1 sn =>
            cases sn
            simp_all
  rw [List.map_congr_left hpt, List.map_id]

/-- Witness for C4: the two-level demo tree (folder 1 with file child 2)
round-trips byte-for-byte through serialize and two-pass deserialize. -/
theorem unserialize_serialize_id_witness :
    unserializeTree (serializeTree demoTree) = demoTree :=
  unserialize_serialize_id demoTree (by decide) (by decide)

/-- Claim C6: deserialization is two-pass — pass 1 materializes every node
keyed by its own handle, pass 2 resolves stored parent handles into parent
pointers and thereby into the parent's derived child collection, regardless
of record order (so a child record may precede its parent record); a node
whose stored parent handle resolves to no materialized node is kept as an
orphan root rather than failing. -/
theorem unserialize_two_pass (rs : List NodeRecord)
    (hnd : (rs.map NodeRecord.handle).Nodup) (r : NodeRecord) (hr : r ∈ rs) :
    (r.parenthandle = none →
      lookupN (unserializeTree rs) r.handle =
        some (SNode.mk none r.ntype r.size r.keydata r.attrdata)) ∧
    (∀ ph, r.parenthandle = some ph → recHasHandle rs ph = true →
      lookupN (unserializeTree rs) r.handle =
        some (SNode.mk (some ph) r.ntype r.size r.keydata r.attrdata) ∧
      r.handle ∈ childrenOf (unserializeTree rs) ph) ∧
    (∀ ph, r.parenthandle = some ph → recHasHandle rs ph = false →
      lookupN (unserializeTree rs) r.handle =
        some (SNode.mk none r.ntype r.size r.keydata r.attrdata)) := by
  have hfr : findRecord rs r.handle = some r := findRecord_of_mem_nodup rs hnd r hr
  have hlk : lookupN (unserializeTree rs) r.handle =
      some (resolveRecord rs (pass1 rs) r.handle
        (SNode.mk none r.ntype r.size r.keydata r.attrdata)) := by
    unfold unserializeTree pass2
    rw [lookupN_mapval, lookupN_pass1, hfr]
    rfl
  refine ⟨?_, ?_, ?_⟩
  · intro hpn
    rw [hlk, resolveRecord_eq rs (pass1 rs) r.handle _ r hfr, hpn]
  · intro ph hps hhh
    have hres : resolveRecord rs (pass1 rs) r.handle
        (SNode.mk none r.ntype r.size r.keydata r.attrdata) =
        SNode.mk (some ph) r.ntype r.size r.keydata r.attrdata := by
      rw [resolveRecord_eq rs (pass1 rs) r.handle _ r hfr, hps]
      show (if hasHandle (pass1 rs) ph = true
        then SNode.mk (some ph) r.ntype r.size r.keydata r.attrdata
        else SNode.mk none r.ntype r.size r.keydata r.attrdata) =
        SNode.mk (some ph) r.ntype r.size r.keydata r.attrdata
      rw [hasHandle_pass1, hhh, if_pos rfl]
    constructor
    · rw [hlk, hres]
    · have hmem : (r.handle, SNode.mk (some ph) r.ntype r.size r.keydata r.attrdata) ∈
          unserializeTree rs :=
        lookupN_eq_some_mem _ _ _ (by rw [hlk, hres])
      unfold childrenOf
      exact List.mem_map.mpr
        ⟨(r.handle, SNode.mk (some ph) r.ntype r.size r.keydata r.attrdata),
         List.mem_filter.mpr ⟨hmem, by simp⟩, rfl⟩
  · intro ph hps hhh
    rw [hlk, resolveRecord_eq rs (pass1 rs) r.handle _ r hfr, hps]
    show some (if hasHandle (pass1 rs) ph = true
        then SNode.mk (some ph) r.ntype r.size r.keydata r.attrdata
        else SNode.mk none r.ntype r.size r.keydata r.attrdata) =
      some (SNode.mk none r.ntype r.size r.keydata r.attrdata)
    rw [hasHandle_pass1, hhh, if_neg (by simp)]

/-- Witness for C6, spec Scenario D: in the stream where the child record
(node 2, parent handle 1) precedes its parent record (node 1), the second
pass still links node 2 under node 1; and a record whose parent handle
resolves to nothing is kept as an orphan root. -/
theorem unserialize_two_pass_witness :
    (lookupN (unserializeTree streamD) 2 =
        some (SNode.mk (some 1) NType.filenode 10 [7] [8]) ∧
      2 ∈ childrenOf (unserializeTree streamD) 1) ∧
    lookupN (unserializeTree streamOrphan) 3 =
      some (SNode.mk none NType.filenode 7 [1] [2]) :=
  ⟨(unserialize_two_pass streamD (by decide) childRec (by decide)).2.1 1 rfl
     (by decide),
   (unserialize_two_pass streamOrphan (by decide)
     (NodeRecord.mk 3 (some 99) NType.filenode 7 [1] [2]) (by decide)).2.2 99 rfl
     (by decide)⟩

end MegaSdk
